import Mathlib

/-!
Shallow embedding of the bit-manipulation core of the `proc-bitfield`
repository (`src/traits/int_impls.rs`), together with proofs of the
specification's claims about it.

A machine integer of a `W`-bit Rust type is represented by its bit pattern,
a `Nat` strictly below `2 ^ W`.  The type's signedness is carried separately
as a `Bool` (`true` = signed, i.e. an `iN` type; `false` = unsigned, `uN`).
The pattern of a signed value is its two's-complement encoding, so the
mathematical value is recovered by `toSigned`.

The macro `impl_bits_for_int_type!` in `src/traits/int_impls.rs` generates,
for every pair of a storage type and a value type drawn from
`u8 ... u128, usize, i8 ... i128, isize`, the functions `bits`, `with_bits`,
`set_bits`; `impl_bit_for_int_type!` generates `bit`, `with_bit`, `set_bit`
for every such type.  Here the widths `W` (storage) and `VB` (value type) and
the two signedness flags `sS`, `sV` are parameters, so one Lean definition
covers the whole family of generated Rust impls.
-/

namespace ProcBitfield

/-- Two's-complement interpretation of the bit pattern `x` of a `W`-bit
signed integer (valid for `x < 2 ^ W`). -/
def toSigned (W x : Nat) : Int :=
  if x < 2 ^ (W - 1) then (x : Int) else (x : Int) - 2 ^ W

/-- Encode an integer into the bit pattern of a `W`-bit machine word
(two's-complement reduction modulo `2 ^ W`). -/
def ofInt (W : Nat) (z : Int) : Nat :=
  (z % ((2 : Int) ^ W)).toNat

/-- The mathematical value of the pattern `x` of a `W`-bit machine integer
whose signedness is `signed`. -/
def toVal (signed : Bool) (W x : Nat) : Int :=
  if signed then toSigned W x else (x : Int)

/-- Rust `<<` on a `W`-bit integer: bits shifted beyond the top are
discarded.  The bit pattern of the result is the same for signed and
unsigned types, so no signedness parameter is needed. -/
def mshl (W x s : Nat) : Nat :=
  x * 2 ^ s % 2 ^ W

/-- Rust `>>` on a `W`-bit integer: logical shift right for unsigned types,
arithmetic shift right (floor division of the two's-complement value) for
signed types. -/
def mshr (signed : Bool) (W x s : Nat) : Nat :=
  if signed then ofInt W (Int.fdiv (toSigned W x) (2 ^ s)) else x / 2 ^ s

/-- Rust `as` cast from a `fromW`-bit integer (signedness `fromSigned`) to a
`toW`-bit integer: reinterpret the mathematical value modulo `2 ^ toW`
(truncation when narrowing, sign- or zero-extension when widening). -/
def mcast (fromSigned : Bool) (fromW toW x : Nat) : Nat :=
  ofInt toW (toVal fromSigned fromW x)

/-- Rust `!` (bitwise complement) on a `W`-bit integer. -/
def mnot (W x : Nat) : Nat :=
  x ^^^ (2 ^ W - 1)

/-- Rust `wrapping_sub` on a `W`-bit integer, at the bit-pattern level
(identical for signed and unsigned types). -/
def wsub (W a b : Nat) : Nat :=
  (a + (2 ^ W - b % 2 ^ W)) % 2 ^ W

/-- `Bits::bits` from `src/traits/int_impls.rs` (lines 5-12):

    fn bits<const START: usize, const END: usize>(&self) -> $value {
        const VALUE_BITS: usize = <$value>::BITS as usize;
        let read_bits = END - START;
        ((*self >> START) as $value) << (VALUE_BITS - read_bits)
            >> (VALUE_BITS - read_bits)
    }

`sS`/`W` describe the storage type, `sV`/`VB` the value type; `x` is the
storage word's bit pattern and the result is the extracted value's bit
pattern. -/
def bits (sS : Bool) (W : Nat) (sV : Bool) (VB START END_ x : Nat) : Nat :=
  let read_bits := END_ - START
  mshr sV VB (mshl VB (mcast sS W VB (mshr sS W x START)) (VB - read_bits))
    (VB - read_bits)

/-- `WithBits::with_bits` from `src/traits/int_impls.rs` (lines 14-21):

    fn with_bits<const START: usize, const END: usize>(self, value: $value) -> Self {
        let written_bits = END - START;
        let mask = ((1 as $storage) << (written_bits - 1) << 1).wrapping_sub(1) << START;
        (self & !mask) | ((value as $storage) << START & mask)
    }
-/
def with_bits (sS : Bool) (W : Nat) (sV : Bool) (VB START END_ x v : Nat) : Nat :=
  let written_bits := END_ - START
  let mask := mshl W (wsub W (mshl W (mshl W 1 (written_bits - 1)) 1) 1) START
  (x &&& mnot W mask) ||| (mshl W (mcast sV VB W v) START &&& mask)

/-- `SetBits::set_bits` from `src/traits/int_impls.rs` (lines 23-28):
`*self = self.with_bits::<START, END>(value);` — the in-place form, modelled
as returning the new value of the owning word. -/
def set_bits (sS : Bool) (W : Nat) (sV : Bool) (VB START END_ x v : Nat) : Nat :=
  with_bits sS W sV VB START END_ x v

/-- `Bit::bit` from `src/traits/int_impls.rs` (lines 49-54):
`*self & 1 << BIT != 0`.  The `sS` parameter records the storage type's
signedness; `&` and the comparison with `0` act on bit patterns, so it is
unused in the body (as in the Rust source, where the same macro body serves
all twelve integer types). -/
def bit (sS : Bool) (W BIT x : Nat) : Bool :=
  x &&& mshl W 1 BIT != 0

/-- `WithBit::with_bit` from `src/traits/int_impls.rs` (lines 56-61):
`(self & !(1 << BIT)) | (value as $t) << BIT`. -/
def with_bit (sS : Bool) (W BIT x : Nat) (value : Bool) : Nat :=
  (x &&& mnot W (mshl W 1 BIT)) ||| mshl W (if value then 1 else 0) BIT

/-- `SetBit::set_bit` from `src/traits/int_impls.rs` (lines 63-68):
`*self = self.with_bit::<BIT>(value);`. -/
def set_bit (sS : Bool) (W BIT x : Nat) (value : Bool) : Nat :=
  with_bit sS W BIT x value

/-! ## Checked (panic-aware) variants

Rust's `<<` and `>>` panic (overflow-check failure) when the shift amount
is at least the type's bit width, and `-` on `usize` panics on underflow;
`wrapping_sub` and `as` casts never fail.  The following variants return
`none` exactly when the corresponding Rust expression would fail such a
check, and otherwise `some` of the value computed above. -/

/-- `<<` with the shift-amount check made explicit. -/
def shlChecked (W x s : Nat) : Option Nat :=
  if s < W then some (mshl W x s) else none

/-- `>>` with the shift-amount check made explicit. -/
def shrChecked (signed : Bool) (W x s : Nat) : Option Nat :=
  if s < W then some (mshr signed W x s) else none

/-- `usize` subtraction with the underflow check made explicit. -/
def subChecked (a b : Nat) : Option Nat :=
  if b ≤ a then some (a - b) else none

/-- `Bits::bits` with every shift-amount and subtraction check explicit:
`none` means the Rust code would fail an arithmetic check. -/
def bitsChecked (sS : Bool) (W : Nat) (sV : Bool) (VB START END_ x : Nat) :
    Option Nat := do
  let read_bits ← subChecked END_ START
  let sh ← subChecked VB read_bits
  let t1 ← shrChecked sS W x START
  let t2 ← shlChecked VB (mcast sS W VB t1) sh
  shrChecked sV VB t2 sh

/-- `WithBits::with_bits` with every shift-amount and subtraction check
explicit (`wrapping_sub` and the `as` cast cannot fail). -/
def with_bitsChecked (sS : Bool) (W : Nat) (sV : Bool) (VB START END_ x v : Nat) :
    Option Nat := do
  let written_bits ← subChecked END_ START
  let a ← subChecked written_bits 1
  let m1 ← shlChecked W 1 a
  let m2 ← shlChecked W m1 1
  let mask ← shlChecked W (wsub W m2 1) START
  let t ← shlChecked W (mcast sV VB W v) START
  some ((x &&& mnot W mask) ||| (t &&& mask))

/-! ## Specification-side definition -/

/-- Expected result of extracting a field of width `k` holding the low `k`
bits of `v`, as a `VB`-bit value of signedness `signed`: the spec's
`sign_or_zero_extend(v)` — the low `k` bits of `v`, sign-extended to `VB`
bits when the value type is signed and zero-extended when it is unsigned. -/
def sign_or_zero_extend (signed : Bool) (VB k v : Nat) : Nat :=
  let y := v % 2 ^ k
  if signed = true ∧ 2 ^ (k - 1) ≤ y then y + (2 ^ VB - 2 ^ k) else y

/-! ## The `FieldTypeConversions` example fields (checked / unwrap tiers)

The `bitfield!` macro expansion and the `NonZeroU8` conversion live outside
the two source files, so the accessors below are modelled from the spec. -/

/-- Modelled from the spec: `<NonZeroU8 as TryFrom<u8>>::try_from` — the
checked conversion used by the `try_get NonZeroU8` tier; `0` is the only
invalid raw value (the conversion-error value is modelled as `Unit`). -/
def nonZeroU8TryFrom (n : Nat) : Except Unit Nat :=
  if n = 0 then Except.error () else Except.ok n

/-- Modelled from the spec: the generated getter of field
`try_read_as_non_zero_u8: u8 [try_get NonZeroU8] @ 0..=3` of
`FieldTypeConversions(pub u16)` in `src/example.rs` — extract bits `[0, 4)`
as a `u8`, then apply the checked conversion and return its result. -/
def try_read_as_non_zero_u8 (raw : Nat) : Except Unit Nat :=
  nonZeroU8TryFrom (bits false 16 false 8 0 4 raw)

/-- Modelled from the spec: the generated setter of the same field — writes
take a plain `u8` inserted with `with_bits` over `[0, 4)`. -/
def with_try_read_as_non_zero_u8 (raw v : Nat) : Nat :=
  with_bits false 16 false 8 0 4 raw v

/-- Modelled from the spec: the generated getter of field
`unwrap_read_as_non_zero_u8: u8 [unwrap_get NonZeroU8] @ 0..=3` — the same
checked conversion, but a failure aborts (`unwrap`); the abort is modelled
as `none`. -/
def unwrap_read_as_non_zero_u8 (raw : Nat) : Option Nat :=
  (nonZeroU8TryFrom (bits false 16 false 8 0 4 raw)).toOption

/-! ## Arithmetic characterization of the machine operations -/

theorem natCast_two_pow (k : Nat) : ((2 ^ k : Nat) : Int) = (2 : Int) ^ k := by
  push_cast
  ring

theorem ofInt_natCast {W n : Nat} (h : n < 2 ^ W) : ofInt W (n : Int) = n := by
  unfold ofInt
  rw [← natCast_two_pow, ← Int.ofNat_emod, Int.toNat_natCast, Nat.mod_eq_of_lt h]

theorem toNat_emod_nat {a : Int} (h : 0 ≤ a) (n : Nat) :
    a.toNat % n = (a % (n : Int)).toNat := by
  conv_rhs => rw [← Int.toNat_of_nonneg h]
  rw [← Int.ofNat_emod, Int.toNat_natCast]

theorem ofInt_mod_pow {W k : Nat} (z : Int) (hk : k ≤ W) :
    ofInt W z % 2 ^ k = ofInt k z := by
  unfold ofInt
  rw [toNat_emod_nat (Int.emod_nonneg z (by positivity)) (2 ^ k), natCast_two_pow,
    Int.emod_emod_of_dvd z (pow_dvd_pow 2 hk)]

theorem ofInt_natCast_sub_pow {W n : Nat} (h : n < 2 ^ W) :
    ofInt W ((n : Int) - ((2 ^ W : Nat) : Int)) = n := by
  unfold ofInt
  rw [show (n : Int) - ((2 ^ W : Nat) : Int) = (n : Int) + (2 : Int) ^ W * (-1) by
    rw [← natCast_two_pow]; ring]
  rw [Int.add_mul_emod_self_left, ← natCast_two_pow, ← Int.ofNat_emod,
    Int.toNat_natCast, Nat.mod_eq_of_lt h]

theorem mshr_false (W x s : Nat) : mshr false W x s = x / 2 ^ s := rfl

theorem mshr_true (W x s : Nat) :
    mshr true W x s = ofInt W (Int.fdiv (toSigned W x) (2 ^ s)) := rfl

/-- Arithmetic right shift at the pattern level: a logical shift plus, for a
negative (top-bit-set) signed value, the sign-fill bits `2^W - 2^(W-s)`. -/
theorem mshr_eq (signed : Bool) {W s x : Nat} (hs : s ≤ W) (hx : x < 2 ^ W) :
    mshr signed W x s =
      x / 2 ^ s +
        if signed = true ∧ 2 ^ (W - 1) ≤ x then 2 ^ W - 2 ^ (W - s) else 0 := by
  cases signed with
  | false => simp [mshr_false]
  | true =>
    rw [mshr_true]
    unfold toSigned
    simp only [true_and]
    have hpow : 2 ^ (W - s) * 2 ^ s = 2 ^ W := by
      rw [← pow_add]
      congr 1
      omega
    by_cases h1 : x < 2 ^ (W - 1)
    · rw [if_pos h1, if_neg (by omega)]
      rw [Int.fdiv_eq_ediv _ (by positivity), ← natCast_two_pow, ← Int.ofNat_ediv,
        ofInt_natCast (Nat.lt_of_le_of_lt (Nat.div_le_self _ _) hx), Nat.add_zero]
    · rw [if_neg h1, if_pos (by omega)]
      have hq : x / 2 ^ s < 2 ^ (W - s) := by
        rw [Nat.div_lt_iff_lt_mul (by positivity)]
        omega
      have hle : 2 ^ (W - s) ≤ 2 ^ W := Nat.pow_le_pow_right (by omega) (by omega)
      have step : (x : Int) - 2 ^ W =
          ((x / 2 ^ s : Nat) : Int) * ((2 ^ s : Nat) : Int) + ((x % 2 ^ s : Nat) : Int) -
            ((2 ^ (W - s) : Nat) : Int) * ((2 ^ s : Nat) : Int) := by
        rw [← natCast_two_pow, ← Nat.cast_mul, ← Nat.cast_mul, hpow, ← Nat.cast_add,
          Nat.div_add_mod']
      rw [Int.fdiv_eq_ediv _ (by positivity), step]
      have hediv : (((x / 2 ^ s : Nat) : Int) * ((2 ^ s : Nat) : Int) +
          ((x % 2 ^ s : Nat) : Int) -
          ((2 ^ (W - s) : Nat) : Int) * ((2 ^ s : Nat) : Int)) / (2 : Int) ^ s =
          ((x / 2 ^ s : Nat) : Int) - ((2 ^ (W - s) : Nat) : Int) := by
        rw [show ((x / 2 ^ s : Nat) : Int) * ((2 ^ s : Nat) : Int) +
            ((x % 2 ^ s : Nat) : Int) -
            ((2 ^ (W - s) : Nat) : Int) * ((2 ^ s : Nat) : Int) =
            ((x % 2 ^ s : Nat) : Int) +
              (((x / 2 ^ s : Nat) : Int) - ((2 ^ (W - s) : Nat) : Int)) *
                ((2 ^ s : Nat) : Int) by ring]
        rw [← natCast_two_pow,
          Int.add_mul_ediv_right _ _ (by positivity : (0:Int) < ((2 ^ s : Nat) : Int)).ne',
          Int.ediv_eq_zero_of_lt (by positivity)
            (by exact_mod_cast Nat.mod_lt x (by positivity)), Int.zero_add]
      rw [hediv]
      have hN : x / 2 ^ s + (2 ^ W - 2 ^ (W - s)) < 2 ^ W := by omega
      have hz : ((x / 2 ^ s : Nat) : Int) - ((2 ^ (W - s) : Nat) : Int) =
          ((x / 2 ^ s + (2 ^ W - 2 ^ (W - s)) : Nat) : Int) - ((2 ^ W : Nat) : Int) := by
        push_cast [Nat.cast_sub hle]
        ring
      rw [hz, ofInt_natCast_sub_pow hN]

theorem ofInt_natCast_mod (k x : Nat) : ofInt k (x : Int) = x % 2 ^ k := by
  unfold ofInt
  rw [← natCast_two_pow, ← Int.ofNat_emod, Int.toNat_natCast]

theorem mshr_lt (signed : Bool) {W s x : Nat} (hs : s ≤ W) (hx : x < 2 ^ W) :
    mshr signed W x s < 2 ^ W := by
  rw [mshr_eq signed hs hx]
  have hpow : 2 ^ (W - s) * 2 ^ s = 2 ^ W := by
    rw [← pow_add]
    congr 1
    omega
  have hq : x / 2 ^ s < 2 ^ (W - s) := by
    rw [Nat.div_lt_iff_lt_mul (by positivity)]
    omega
  have hle : 2 ^ (W - s) ≤ 2 ^ W := Nat.pow_le_pow_right (by omega) (by omega)
  split <;> omega

theorem mshr_mod_pow (signed : Bool) {W s k x : Nat} (hs : s ≤ W) (hk : k ≤ W - s)
    (hx : x < 2 ^ W) :
    mshr signed W x s % 2 ^ k = x / 2 ^ s % 2 ^ k := by
  rw [mshr_eq signed hs hx]
  split
  · have e1 : 2 ^ (W - s - k) * 2 ^ k = 2 ^ (W - s) := by
      rw [← pow_add]
      congr 1
      omega
    have e2 : 2 ^ s * 2 ^ (W - s) = 2 ^ W := by
      rw [← pow_add]
      congr 1
      omega
    have e3 : 2 ^ W - 2 ^ (W - s) = (2 ^ s - 1) * (2 ^ (W - s - k) * 2 ^ k) := by
      rw [e1, Nat.sub_mul, one_mul, e2]
    rw [e3, ← mul_assoc, Nat.add_mul_mod_self_right]
  · simp

theorem toVal_false (W x : Nat) : toVal false W x = (x : Int) := rfl

theorem toVal_true (W x : Nat) : toVal true W x = toSigned W x := rfl

/-- A cast preserves the low `k` bits whenever `k` fits in both types. -/
theorem mcast_mod_pow (s1 : Bool) {W1 W2 k : Nat} (x : Nat) (hk1 : k ≤ W1) (hk2 : k ≤ W2) :
    mcast s1 W1 W2 x % 2 ^ k = x % 2 ^ k := by
  unfold mcast
  rw [ofInt_mod_pow _ hk2]
  cases s1 with
  | false => rw [toVal_false, ofInt_natCast_mod]
  | true =>
    rw [toVal_true]
    unfold toSigned
    split
    · rw [ofInt_natCast_mod]
    · have e3 : (2 : Int) ^ k * (2 : Int) ^ (W1 - k) = (2 : Int) ^ W1 := by
        rw [← pow_add]
        congr 1
        omega
      rw [show (x : Int) - (2 : Int) ^ W1 =
          (x : Int) + (2 : Int) ^ k * (-((2 : Int) ^ (W1 - k))) by rw [mul_neg, e3]; ring]
      unfold ofInt
      rw [Int.add_mul_emod_self_left, ← natCast_two_pow, ← Int.ofNat_emod,
        Int.toNat_natCast]

theorem testBit_of_mod_pow_eq {a b k : Nat} (h : a % 2 ^ k = b % 2 ^ k) {j : Nat}
    (hj : j < k) : a.testBit j = b.testBit j := by
  have ha : (a % 2 ^ k).testBit j = a.testBit j := by
    simp [Nat.testBit_mod_two_pow, hj]
  have hb : (b % 2 ^ k).testBit j = b.testBit j := by
    simp [Nat.testBit_mod_two_pow, hj]
  rw [← ha, ← hb, h]

theorem mshl_testBit (W x s i : Nat) :
    (mshl W x s).testBit i =
      (decide (i < W) && (decide (i ≥ s) && x.testBit (i - s))) := by
  unfold mshl
  rw [Nat.testBit_mod_two_pow, ← Nat.shiftLeft_eq, Nat.testBit_shiftLeft]

theorem mask_testBit (rb s i : Nat) :
    ((2 ^ rb - 1) * 2 ^ s).testBit i = (decide (i ≥ s) && decide (i - s < rb)) := by
  rw [← Nat.shiftLeft_eq, Nat.testBit_shiftLeft, Nat.testBit_two_pow_sub_one]

/-- The mask built by `with_bits` before the final shift:
`((1 << (rb-1)) << 1).wrapping_sub(1)` is `rb` one-bits. -/
theorem with_bits_mask {W rb : Nat} (h1 : 1 ≤ rb) (h2 : rb ≤ W) :
    wsub W (mshl W (mshl W 1 (rb - 1)) 1) 1 = 2 ^ rb - 1 := by
  unfold mshl wsub
  have hlt : 2 ^ (rb - 1) < 2 ^ W := Nat.pow_lt_pow_right (by omega) (by omega)
  have hW1 : (1 : Nat) < 2 ^ W := Nat.one_lt_two_pow_iff.mpr (by omega)
  rw [one_mul, Nat.mod_eq_of_lt hlt]
  have hrr : 2 ^ (rb - 1) * 2 ^ 1 = 2 ^ rb := by
    rw [← pow_add]
    congr 1
    omega
  rw [hrr, Nat.mod_eq_of_lt hW1]
  by_cases hrW : rb = W
  · subst hrW
    rw [Nat.mod_self, Nat.zero_add, Nat.mod_eq_of_lt (by omega)]
  · have hlt2 : 2 ^ rb < 2 ^ W := Nat.pow_lt_pow_right (by omega) (by omega)
    have p1 : 0 < 2 ^ rb := by positivity
    rw [Nat.mod_eq_of_lt hlt2,
      show 2 ^ rb + (2 ^ W - 1) = 2 ^ rb - 1 + 2 ^ W from by omega,
      Nat.add_mod_right, Nat.mod_eq_of_lt (by omega)]

/-- The full mask of `with_bits`: `rb` one-bits shifted to position `s`. -/
theorem with_bits_mask_full {W rb s : Nat} (h1 : 1 ≤ rb) (hsrb : s + rb ≤ W) :
    mshl W (wsub W (mshl W (mshl W 1 (rb - 1)) 1) 1) s = (2 ^ rb - 1) * 2 ^ s := by
  rw [with_bits_mask h1 (by omega)]
  unfold mshl
  apply Nat.mod_eq_of_lt
  have p1 : 0 < 2 ^ rb := by positivity
  have h4 : (2 ^ rb - 1) * 2 ^ s < 2 ^ rb * 2 ^ s :=
    (Nat.mul_lt_mul_right (by positivity)).mpr (by omega)
  have h5 : 2 ^ rb * 2 ^ s ≤ 2 ^ W := by
    rw [← pow_add]
    exact Nat.pow_le_pow_right (by omega) (by omega)
  omega

/-- Bit-level characterization of `with_bits`: bits `[START, END_)` of the
result come from the low bits of `v`, every other bit comes from `x`. -/
theorem with_bits_testBit (sS sV : Bool) {W VB START END_ x v : Nat}
    (hx : x < 2 ^ W) (hse : START < END_) (heW : END_ ≤ W)
    (hrb : END_ - START ≤ VB) (i : Nat) :
    (with_bits sS W sV VB START END_ x v).testBit i =
      if START ≤ i ∧ i < END_ then v.testBit (i - START) else x.testBit i := by
  simp only [with_bits]
  rw [with_bits_mask_full (by omega) (by omega)]
  simp only [Nat.testBit_or, Nat.testBit_and, mnot, Nat.testBit_xor, mask_testBit,
    mshl_testBit, Nat.testBit_two_pow_sub_one]
  by_cases hiW : i < W
  · by_cases hin : START ≤ i ∧ i < END_
    · have h1 : i - START < END_ - START := by omega
      have hvb : (mcast sV VB W v).testBit (i - START) = v.testBit (i - START) :=
        testBit_of_mod_pow_eq
          (mcast_mod_pow sV v hrb (by omega : END_ - START ≤ W)) h1
      simp [hin.1, hin.2, h1, hiW, hvb, hin]
    · have hout : ¬(i ≥ START ∧ i - START < END_ - START) := by omega
      rw [if_neg hin]
      by_cases hiS : START ≤ i
      · have h2 : ¬(i - START < END_ - START) := by omega
        simp [hiS, h2, hiW]
      · simp [hiS, hiW]
  · have hxi : x.testBit i = false :=
      Nat.testBit_lt_two_pow
        (Nat.lt_of_lt_of_le hx (Nat.pow_le_pow_right (by omega) (by omega)))
    rw [if_neg (by omega)]
    simp [hiW, hxi]

/-- `with_bits` returns an in-range storage pattern. -/
theorem with_bits_lt (sS sV : Bool) {W VB START END_ x v : Nat} (hx : x < 2 ^ W) :
    with_bits sS W sV VB START END_ x v < 2 ^ W := by
  simp only [with_bits, mshl]
  apply Nat.or_lt_two_pow
  · exact Nat.lt_of_le_of_lt Nat.and_le_left hx
  · exact Nat.lt_of_le_of_lt Nat.and_le_right (Nat.mod_lt _ (by positivity))

theorem sign_or_zero_extend_congr (sV : Bool) (VB : Nat) {k a b : Nat}
    (h : a % 2 ^ k = b % 2 ^ k) :
    sign_or_zero_extend sV VB k a = sign_or_zero_extend sV VB k b := by
  simp only [sign_or_zero_extend, h]

/-- Arithmetic characterization of `bits`: the double shift extracts the
field `[START, END_)` and sign- or zero-extends it to the value width. -/
theorem bits_eq (sS sV : Bool) {W VB START END_ x : Nat} (hx : x < 2 ^ W)
    (hse : START < END_) (heW : END_ ≤ W) (hrb : END_ - START ≤ VB) :
    bits sS W sV VB START END_ x =
      sign_or_zero_extend sV VB (END_ - START) (x / 2 ^ START) := by
  simp only [bits]
  set rb := END_ - START with hrbdef
  have hrb1 : 1 ≤ rb := by omega
  have hVB1 : 1 ≤ VB := by omega
  have ht2 : mcast sS W VB (mshr sS W x START) % 2 ^ rb = x / 2 ^ START % 2 ^ rb := by
    rw [mcast_mod_pow sS _ (by omega) hrb,
      mshr_mod_pow sS (by omega) (by omega) hx]
  have hsplit : 2 ^ rb * 2 ^ (VB - rb) = 2 ^ VB := by
    rw [← pow_add]
    congr 1
    omega
  have ht3 : mshl VB (mcast sS W VB (mshr sS W x START)) (VB - rb) =
      x / 2 ^ START % 2 ^ rb * 2 ^ (VB - rb) := by
    unfold mshl
    rw [← hsplit, Nat.mul_mod_mul_right, ht2]
  rw [ht3]
  set y := x / 2 ^ START % 2 ^ rb with hydef
  have hy : y < 2 ^ rb := Nat.mod_lt _ (by positivity)
  have hylt : y * 2 ^ (VB - rb) < 2 ^ VB := by
    calc y * 2 ^ (VB - rb) < 2 ^ rb * 2 ^ (VB - rb) :=
          (Nat.mul_lt_mul_right (by positivity)).mpr hy
    _ = 2 ^ VB := hsplit
  rw [mshr_eq sV (by omega) hylt, Nat.mul_div_cancel _ (by positivity)]
  have hcond : 2 ^ (VB - 1) ≤ y * 2 ^ (VB - rb) ↔ 2 ^ (rb - 1) ≤ y := by
    have hsp2 : 2 ^ (VB - 1) = 2 ^ (rb - 1) * 2 ^ (VB - rb) := by
      rw [← pow_add]
      congr 1
      omega
    constructor
    · intro h
      exact Nat.le_of_mul_le_mul_right (by rwa [hsp2] at h) (by positivity)
    · intro h
      rw [hsp2]
      exact Nat.mul_le_mul_right _ h
  have hexp : VB - (VB - rb) = rb := by omega
  rw [hexp]
  unfold sign_or_zero_extend
  rw [← hydef]
  by_cases hc : sV = true ∧ 2 ^ (rb - 1) ≤ y
  · rw [if_pos ⟨hc.1, hcond.mpr hc.2⟩, if_pos hc]
  · rw [if_neg (fun h => hc ⟨h.1, hcond.mp h.2⟩), if_neg hc, Nat.add_zero]

/-- Round trip: extracting a field immediately after writing it returns the
sign- or zero-extension of the written value's low bits. -/
theorem roundtrip_lemma (sS sV : Bool) {W VB START END_ x : Nat} (v : Nat)
    (hx : x < 2 ^ W) (hse : START < END_) (heW : END_ ≤ W)
    (hrb : END_ - START ≤ VB) :
    bits sS W sV VB START END_ (with_bits sS W sV VB START END_ x v) =
      sign_or_zero_extend sV VB (END_ - START) v := by
  rw [bits_eq sS sV (with_bits_lt sS sV hx) hse heW hrb]
  apply sign_or_zero_extend_congr
  apply Nat.eq_of_testBit_eq
  intro j
  rw [Nat.testBit_mod_two_pow, Nat.testBit_mod_two_pow]
  by_cases hj : j < END_ - START
  · rw [show (with_bits sS W sV VB START END_ x v / 2 ^ START).testBit j =
        (with_bits sS W sV VB START END_ x v).testBit (START + j) from by
      rw [← Nat.shiftRight_eq_div_pow, Nat.testBit_shiftRight]]
    rw [with_bits_testBit sS sV hx hse heW hrb (START + j),
      if_pos ⟨by omega, by omega⟩, show START + j - START = j from by omega]
  · simp [hj]

theorem toSigned_neg_iff {W x : Nat} (hx : x < 2 ^ W) :
    toSigned W x < 0 ↔ 2 ^ (W - 1) ≤ x := by
  unfold toSigned
  by_cases h : x < 2 ^ (W - 1)
  · rw [if_pos h]
    constructor <;> intro <;> omega
  · rw [if_neg h, ← natCast_two_pow]
    constructor <;> intro <;> omega

theorem toSigned_of_lt_half {W x : Nat} (h : x < 2 ^ (W - 1)) :
    toSigned W x = (x : Int) := by
  unfold toSigned
  rw [if_pos h]

/-- The top bit of a `k`-bit field value, as a comparison. -/
theorem testBit_top {k y : Nat} (hk : 1 ≤ k) (hy : y < 2 ^ k) :
    y.testBit (k - 1) = decide (2 ^ (k - 1) ≤ y) := by
  rw [Nat.testBit_to_div_mod]
  have h2 : 2 ^ (k - 1) * 2 = 2 ^ k := by
    rw [← pow_succ]
    congr 1
    omega
  have hq : y / 2 ^ (k - 1) < 2 := by
    rw [Nat.div_lt_iff_lt_mul (by positivity)]
    omega
  have h0 := Nat.div_add_mod y (2 ^ (k - 1))
  have hm : y % 2 ^ (k - 1) < 2 ^ (k - 1) := Nat.mod_lt _ (by positivity)
  rcases Nat.le_one_iff_eq_zero_or_eq_one.mp (Nat.lt_succ_iff.mp hq) with h | h
  · rw [h, Nat.mul_zero, Nat.zero_add] at h0
    have hyA : ¬ 2 ^ (k - 1) ≤ y := by omega
    simp [h, hyA]
  · rw [h, Nat.mul_one] at h0
    have hyA : 2 ^ (k - 1) ≤ y := by omega
    simp [h, hyA]

/-- `Bit::bit` agrees with `Nat.testBit`. -/
theorem bit_eq_testBit (sS : Bool) {W BIT : Nat} (x : Nat) (hB : BIT < W) :
    bit sS W BIT x = x.testBit BIT := by
  unfold bit
  have h1 : mshl W 1 BIT = 2 ^ BIT := by
    unfold mshl
    rw [one_mul, Nat.mod_eq_of_lt (Nat.pow_lt_pow_right (by omega) hB)]
  rw [h1]
  have h2 : x &&& 2 ^ BIT = if x.testBit BIT then 2 ^ BIT else 0 := by
    apply Nat.eq_of_testBit_eq
    intro j
    rw [Nat.testBit_and, Nat.testBit_two_pow]
    by_cases hj : BIT = j
    · subst hj
      cases hxB : x.testBit BIT <;> simp [hxB]
    · cases hxB : x.testBit BIT <;> simp [hj, Nat.testBit_two_pow]
  rw [h2]
  cases hxB : x.testBit BIT <;> simp [bne, hxB]

theorem with_bit_testBit (sS : Bool) {W BIT x : Nat} (b : Bool) (hx : x < 2 ^ W)
    (hB : BIT < W) (i : Nat) :
    (with_bit sS W BIT x b).testBit i = if i = BIT then b else x.testBit i := by
  unfold with_bit
  have h1 : mshl W 1 BIT = 2 ^ BIT := by
    unfold mshl
    rw [one_mul, Nat.mod_eq_of_lt (Nat.pow_lt_pow_right (by omega) hB)]
  rw [h1]
  simp only [Nat.testBit_or, Nat.testBit_and, mnot, Nat.testBit_xor,
    Nat.testBit_two_pow, Nat.testBit_two_pow_sub_one]
  by_cases hiB : i = BIT
  · subst hiB
    cases b <;> simp [mshl, hB, h1, Nat.testBit_two_pow]
  · have hBi : ¬ BIT = i := fun h => hiB h.symm
    by_cases hiW : i < W
    · cases b <;> simp [mshl, hiB, hBi, hiW, h1, Nat.testBit_two_pow]
    · have hxi : x.testBit i = false :=
        Nat.testBit_lt_two_pow
          (Nat.lt_of_lt_of_le hx (Nat.pow_le_pow_right (by omega) (by omega)))
      cases b <;> simp [mshl, hiB, hBi, hiW, hxi, h1, Nat.testBit_two_pow]

theorem with_bit_lt (sS : Bool) {W BIT x : Nat} (b : Bool) (hx : x < 2 ^ W) :
    with_bit sS W BIT x b < 2 ^ W := by
  unfold with_bit
  apply Nat.or_lt_two_pow
  · exact Nat.lt_of_le_of_lt Nat.and_le_left hx
  · unfold mshl
    exact Nat.mod_lt _ (by positivity)

theorem bits_lt (sS sV : Bool) (W VB START END_ x : Nat) :
    bits sS W sV VB START END_ x < 2 ^ VB := by
  simp only [bits]
  exact mshr_lt sV (by omega) (by unfold mshl; exact Nat.mod_lt _ (by positivity))

/-- Under the field preconditions no arithmetic check in `bits` fails. -/
theorem bitsChecked_eq_some (sS sV : Bool) {W VB START END_ : Nat} (x : Nat)
    (hse : START < END_) (heW : END_ ≤ W) (hrb : END_ - START ≤ VB) :
    bitsChecked sS W sV VB START END_ x = some (bits sS W sV VB START END_ x) := by
  have c1 : START ≤ END_ := by omega
  have c3 : START < W := by omega
  have c4 : VB - (END_ - START) < VB := by omega
  simp [bitsChecked, subChecked, shrChecked, shlChecked, bits, c1, hrb, c3, c4]

/-- Under the field preconditions (with a storage width of at least two bits,
true of every Rust integer type) no arithmetic check in `with_bits` fails. -/
theorem with_bitsChecked_eq_some (sS sV : Bool) {W VB START END_ : Nat} (x v : Nat)
    (hW : 2 ≤ W) (hse : START < END_) (heW : END_ ≤ W) :
    with_bitsChecked sS W sV VB START END_ x v =
      some (with_bits sS W sV VB START END_ x v) := by
  have c1 : START ≤ END_ := by omega
  have c2 : 1 ≤ END_ - START := by omega
  have c3 : START < W := by omega
  have c5 : END_ - START - 1 < W := by omega
  have c6 : 1 < W := by omega
  simp [with_bitsChecked, subChecked, shlChecked, with_bits, c1, c2, c3, c5, c6]

/-- The top bit of the stored field `[START, END_)` (bit `END_ - 1` of the
word), as a comparison on the extracted field value. -/
theorem field_top_bit {W START END_ : Nat} (x : Nat) (hse : START < END_)
    (heW : END_ ≤ W) :
    x.testBit (END_ - 1) =
      decide (2 ^ (END_ - START - 1) ≤ x / 2 ^ START % 2 ^ (END_ - START)) := by
  have hy : x / 2 ^ START % 2 ^ (END_ - START) < 2 ^ (END_ - START) :=
    Nat.mod_lt _ (by positivity)
  rw [show x.testBit (END_ - 1) = (x / 2 ^ START).testBit (END_ - START - 1) from by
      rw [← Nat.shiftRight_eq_div_pow, Nat.testBit_shiftRight]
      congr 1
      omega,
    testBit_of_mod_pow_eq ((Nat.mod_mod_of_dvd _ dvd_rfl).symm :
        x / 2 ^ START % 2 ^ (END_ - START) =
          x / 2 ^ START % 2 ^ (END_ - START) % 2 ^ (END_ - START))
      (by omega : END_ - START - 1 < END_ - START)]
  exact testBit_top (by omega) hy

/-! ## The claims -/

/-- C1.  Round-trip: for every storage word, every bit range
`[START, END_)` with `START < END_ ≤ W` and `END_ - START ≤ VB`, and every
raw value `v`, extracting the range after writing it returns the
sign-extension (signed raw type) or zero-extension (unsigned raw type) of
`v`'s low `END_ - START` bits. -/
theorem C1_round_trip (sS sV : Bool) (W VB START END_ x v : Nat)
    (hx : x < 2 ^ W) (hv : v < 2 ^ VB) (hse : START < END_) (heW : END_ ≤ W)
    (hrb : END_ - START ≤ VB) :
    bits sS W sV VB START END_ (with_bits sS W sV VB START END_ x v) =
      sign_or_zero_extend sV VB (END_ - START) v :=
  roundtrip_lemma sS sV v hx hse heW hrb

theorem C1_round_trip_witness :
    bits false 16 true 8 4 8 (with_bits false 16 true 8 4 8 43981 9) =
      sign_or_zero_extend true 8 4 9 :=
  C1_round_trip false true 16 8 4 8 43981 9 (by decide) (by decide) (by decide)
    (by decide) (by decide)

/-- C2.  Non-interference (frame): every bit of `with_bits word v` at a
position outside `[START, END_)` equals the corresponding bit of `word`. -/
theorem C2_frame (sS sV : Bool) (W VB START END_ x v : Nat)
    (hx : x < 2 ^ W) (hv : v < 2 ^ VB) (hse : START < END_) (heW : END_ ≤ W)
    (hrb : END_ - START ≤ VB) :
    ∀ i, i < START ∨ END_ ≤ i →
      (with_bits sS W sV VB START END_ x v).testBit i = x.testBit i := by
  intro i hi
  rw [with_bits_testBit sS sV hx hse heW hrb i, if_neg (by omega)]

theorem C2_frame_witness :
    (with_bits false 16 false 8 4 8 43981 255).testBit 9 = (43981 : Nat).testBit 9 :=
  C2_frame false false 16 8 4 8 43981 255 (by decide) (by decide) (by decide)
    (by decide) (by decide) 9 (Or.inr (by decide))

/-- C3.  Sign extension: for a signed raw type of width `VB` and a field of
width `END_ - START < VB`, a stored field whose top bit (bit `END_ - 1` of
the word) is set extracts to a negative value, and a clear top bit extracts
to a non-negative value; concretely a 4-bit signed field holding `1000`
extracts to `-8` and `0111` extracts to `7`. -/
theorem C3_sign_extension (sS : Bool) (W VB START END_ x : Nat)
    (hx : x < 2 ^ W) (hse : START < END_) (heW : END_ ≤ W)
    (hk : END_ - START < VB) :
    ((x.testBit (END_ - 1) = true →
        toSigned VB (bits sS W true VB START END_ x) < 0) ∧
      (x.testBit (END_ - 1) = false →
        0 ≤ toSigned VB (bits sS W true VB START END_ x))) ∧
    toSigned 8 (bits false 16 true 8 0 4 8) = -8 ∧
    toSigned 8 (bits false 16 true 8 0 4 7) = 7 := by
  have hbe := @bits_eq sS true W VB START END_ x hx hse heW (by omega)
  have hy : x / 2 ^ START % 2 ^ (END_ - START) < 2 ^ (END_ - START) :=
    Nat.mod_lt _ (by positivity)
  have hA : 2 ^ (END_ - START - 1) ≤ 2 ^ (VB - 1) :=
    Nat.pow_le_pow_right (by omega) (by omega)
  have hB : 2 ^ (VB - 1) * 2 = 2 ^ VB := by
    rw [← pow_succ]
    congr 1
    omega
  have hC : 2 ^ (END_ - START) ≤ 2 ^ VB := Nat.pow_le_pow_right (by omega) (by omega)
  have hD : 2 ^ (END_ - START - 1) * 2 = 2 ^ (END_ - START) := by
    rw [← pow_succ]
    congr 1
    omega
  refine ⟨⟨?_, ?_⟩, by decide, by decide⟩
  · intro htop
    rw [field_top_bit x hse heW] at htop
    have hyge := of_decide_eq_true htop
    have hval : sign_or_zero_extend true VB (END_ - START) (x / 2 ^ START) =
        x / 2 ^ START % 2 ^ (END_ - START) + (2 ^ VB - 2 ^ (END_ - START)) := by
      simp only [sign_or_zero_extend]
      rw [if_pos ⟨trivial, hyge⟩]
    rw [hbe, hval, toSigned_neg_iff (by omega)]
    omega
  · intro htop
    rw [field_top_bit x hse heW] at htop
    have hylt : x / 2 ^ START % 2 ^ (END_ - START) < 2 ^ (END_ - START - 1) := by
      have := of_decide_eq_false htop
      omega
    have hval : sign_or_zero_extend true VB (END_ - START) (x / 2 ^ START) =
        x / 2 ^ START % 2 ^ (END_ - START) := by
      simp only [sign_or_zero_extend]
      rw [if_neg (fun h => absurd h.2 (by omega))]
    rw [hbe, hval, toSigned_of_lt_half (Nat.lt_of_lt_of_le hylt hA)]
    positivity

theorem C3_sign_extension_witness :
    toSigned 8 (bits false 16 true 8 4 8 128) < 0 :=
  ((C3_sign_extension false 16 8 4 8 128 (by decide) (by decide) (by decide)
    (by decide)).1.1) (by decide)

/-- C4.  Totality / no panic: under the preconditions
`START < END_ ≤ W` and `END_ - START ≤ VB` (with `2 ≤ W`, true of every Rust
integer type), every arithmetic check in `bits` and `with_bits` passes: no
shift amount reaches the type's width and no subtraction underflows. -/
theorem C4_no_panic (sS sV : Bool) (W VB START END_ x v : Nat)
    (hW : 2 ≤ W) (hse : START < END_) (heW : END_ ≤ W) (hrb : END_ - START ≤ VB) :
    bitsChecked sS W sV VB START END_ x = some (bits sS W sV VB START END_ x) ∧
    with_bitsChecked sS W sV VB START END_ x v =
      some (with_bits sS W sV VB START END_ x v) :=
  ⟨bitsChecked_eq_some sS sV x hse heW hrb,
    with_bitsChecked_eq_some sS sV x v hW hse heW⟩

theorem C4_no_panic_witness :
    bitsChecked false 16 false 16 0 16 65535 = some (bits false 16 false 16 0 16 65535) ∧
    with_bitsChecked false 16 false 16 0 16 65535 65535 =
      some (with_bits false 16 false 16 0 16 65535 65535) :=
  C4_no_panic false false 16 16 0 16 65535 65535 (by decide) (by decide) (by decide)
    (by decide)

/-- C5 counterexample: a full-width field `[0, 16)` on unsigned 16-bit
storage read with the wider signed raw type `i32` does not return the word
unchanged — for the word `0x8000` the double shift sign-extends and `bits`
returns the `i32` pattern `0xFFFF8000`, not `0x8000`. -/
theorem C5_counterexample :
    bits false 16 true 32 0 16 32768 ≠ 32768 ∧
    bits false 16 true 32 0 16 32768 = 4294934528 :=
  ⟨by decide, by decide⟩

/-- C5 (amended).  Width boundary: for a field `[0, W)` spanning the whole
storage word and a raw type of width `VB ≥ W`, `bits` returns the word
exactly whenever the raw type is unsigned or exactly `W` bits wide; in
general its low `W` bits are the word (a wider signed raw type
sign-extends).  `with_bits` accepts every raw value and stores its low `W`
bits verbatim. -/
theorem C5_width_boundary (sS sV : Bool) (W VB x v : Nat)
    (hW : 1 ≤ W) (hx : x < 2 ^ W) (hv : v < 2 ^ VB) (hVB : W ≤ VB) :
    (sV = false → bits sS W sV VB 0 W x = x) ∧
    (VB = W → bits sS W sV VB 0 W x = x) ∧
    bits sS W sV VB 0 W x % 2 ^ W = x ∧
    with_bits sS W sV VB 0 W x v = v % 2 ^ W := by
  have hbe := @bits_eq sS sV W VB 0 W x hx (by omega) (le_refl W) (by omega)
  rw [Nat.sub_zero, pow_zero, Nat.div_one] at hbe
  have hxm : x % 2 ^ W = x := Nat.mod_eq_of_lt hx
  refine ⟨?_, ?_, ?_, ?_⟩
  · intro hsv
    subst hsv
    rw [hbe]
    simp only [sign_or_zero_extend]
    rw [if_neg (by simp), hxm]
  · intro hvb
    subst hvb
    rw [hbe]
    simp only [sign_or_zero_extend, Nat.sub_self, Nat.add_zero, hxm, ite_self]
  · rw [hbe]
    simp only [sign_or_zero_extend]
    split
    · have hVBW : VB - W + W = VB := by omega
      have hmul : 2 ^ VB - 2 ^ W = (2 ^ (VB - W) - 1) * 2 ^ W := by
        rw [Nat.sub_mul, one_mul, ← pow_add, hVBW]
      rw [hxm, hmul, Nat.add_mul_mod_self_right, hxm]
    · rw [hxm, hxm]
  · apply Nat.eq_of_testBit_eq
    intro i
    rw [with_bits_testBit sS sV hx (by omega) (le_refl W) (by omega) i,
      Nat.testBit_mod_two_pow]
    by_cases hiW : i < W
    · rw [if_pos ⟨Nat.zero_le i, hiW⟩, Nat.sub_zero]
      simp [hiW]
    · rw [if_neg (by omega)]
      have hxi : x.testBit i = false :=
        Nat.testBit_lt_two_pow
          (Nat.lt_of_lt_of_le hx (Nat.pow_le_pow_right (by omega) (by omega)))
      simp [hiW, hxi]

theorem C5_width_boundary_witness :
    bits false 16 false 16 0 16 43981 = 43981 :=
  (C5_width_boundary false false 16 16 43981 0 (by decide) (by decide) (by decide)
    (by decide)).1 rfl

/-- C6.  Truncating write: `with_bits` keeps only the low `END_ - START`
bits of the written value (writing `v` equals writing `v mod 2^(END_-START)`),
leaves every bit outside the field unchanged, and concretely writing raw
`0xFF` into a 4-bit unsigned field then reading it back yields `0x0F` for
every storage word. -/
theorem C6_truncating_write (sS sV : Bool) (W VB START END_ x v : Nat)
    (hx : x < 2 ^ W) (hv : v < 2 ^ VB) (hse : START < END_) (heW : END_ ≤ W)
    (hrb : END_ - START ≤ VB) :
    (with_bits sS W sV VB START END_ x v =
       with_bits sS W sV VB START END_ x (v % 2 ^ (END_ - START))) ∧
    (∀ i, i < START ∨ END_ ≤ i →
       (with_bits sS W sV VB START END_ x v).testBit i = x.testBit i) ∧
    (∀ w, w < 2 ^ 16 →
       bits false 16 false 8 4 8 (with_bits false 16 false 8 4 8 w 255) = 15) := by
  refine ⟨?_, ?_, ?_⟩
  · apply Nat.eq_of_testBit_eq
    intro i
    rw [with_bits_testBit sS sV hx hse heW hrb i,
      with_bits_testBit sS sV hx hse heW hrb i]
    by_cases h : START ≤ i ∧ i < END_
    · rw [if_pos h, if_pos h, Nat.testBit_mod_two_pow]
      simp [show i - START < END_ - START from by omega]
    · rw [if_neg h, if_neg h]
  · intro i hi
    rw [with_bits_testBit sS sV hx hse heW hrb i, if_neg (by omega)]
  · intro w hw
    rw [roundtrip_lemma false false 255 hw (by omega) (by omega) (by omega)]
    decide

theorem C6_truncating_write_witness :
    with_bits false 16 false 8 4 8 43981 255 =
      with_bits false 16 false 8 4 8 43981 (255 % 2 ^ 4) :=
  (C6_truncating_write false false 16 8 4 8 43981 255 (by decide) (by decide)
    (by decide) (by decide) (by decide)).1

/-- C7 counterexample: the claimed correspondence "`bit` returns true iff
`bits` over the one-bit range returns 1" fails for a signed raw type: on
`u8` storage with raw type `i8`, word `1`, position `0`, `bit` is true but
`bits` returns the all-ones pattern `0xFF` (the `i8` value `-1`), not `1`. -/
theorem C7_counterexample :
    bit false 8 0 1 = true ∧
    bits false 8 true 8 0 1 1 ≠ 1 ∧
    toSigned 8 (bits false 8 true 8 0 1 1) = -1 :=
  ⟨by decide, by decide, by decide⟩

/-- C7 (amended).  Single-bit agreement: `bit pos` agrees with `bits` over
the one-bit range `[pos, pos+1)` in the sense that the bit is set iff the
extracted value is non-zero; for an unsigned raw type the extracted value
is `1` exactly when the bit is set, while for a signed raw type it is the
all-ones pattern `2^VB - 1` (value `-1`).  Moreover `bit pos` itself equals
`(word >> pos) & 1 != 0`. -/
theorem C7_single_bit_agreement (sS sV : Bool) (W VB pos x : Nat)
    (hx : x < 2 ^ W) (hpos : pos < W) (hVB : 1 ≤ VB) :
    (bit sS W pos x = true ↔ bits sS W sV VB pos (pos + 1) x ≠ 0) ∧
    (sV = false → (bit sS W pos x = true ↔ bits sS W sV VB pos (pos + 1) x = 1)) ∧
    (sV = true → (bit sS W pos x = true ↔
       bits sS W sV VB pos (pos + 1) x = 2 ^ VB - 1)) ∧
    bit sS W pos x = (x >>> pos &&& 1 != 0) := by
  have hb := bit_eq_testBit sS x hpos
  have hbe := @bits_eq sS sV W VB pos (pos + 1) x hx (by omega) (by omega) (by omega)
  rw [Nat.add_sub_cancel_left] at hbe
  have h2VB : 2 ≤ 2 ^ VB := by
    calc 2 = 2 ^ 1 := (pow_one 2).symm
    _ ≤ 2 ^ VB := Nat.pow_le_pow_right (by omega) (by omega)
  have hval0 : x.testBit pos = false → bits sS W sV VB pos (pos + 1) x = 0 := by
    intro hxb
    rw [hbe]
    simp only [sign_or_zero_extend, pow_one, Nat.sub_self, pow_zero]
    rw [Nat.testBit_to_div_mod] at hxb
    have h0 : x / 2 ^ pos % 2 = 0 := by
      have := of_decide_eq_false hxb
      omega
    rw [h0]
    simp
  have hval1 : x.testBit pos = true →
      bits sS W sV VB pos (pos + 1) x = if sV = true then 2 ^ VB - 1 else 1 := by
    intro hxb
    rw [hbe]
    simp only [sign_or_zero_extend, pow_one, Nat.sub_self, pow_zero]
    rw [Nat.testBit_to_div_mod] at hxb
    have h1 : x / 2 ^ pos % 2 = 1 := of_decide_eq_true hxb
    rw [h1]
    by_cases hsv : sV = true
    · rw [if_pos ⟨hsv, le_refl 1⟩, if_pos hsv]
      omega
    · rw [if_neg (fun h => hsv h.1), if_neg hsv]
  refine ⟨?_, ?_, ?_, ?_⟩
  · rw [hb]
    cases hxb : x.testBit pos
    · rw [hval0 hxb]
      simp
    · rw [hval1 hxb]
      constructor
      · intro _
        by_cases hsv : sV = true
        · rw [if_pos hsv]
          omega
        · rw [if_neg hsv]
          omega
      · intro _
        rfl
  · intro hsv
    rw [hb]
    cases hxb : x.testBit pos
    · rw [hval0 hxb]
      simp
    · rw [hval1 hxb, hsv]
      simp
  · intro hsv
    rw [hb]
    cases hxb : x.testBit pos
    · rw [hval0 hxb]
      constructor
      · intro h
        exact Bool.noConfusion h
      · intro h
        exact absurd h.symm (by omega)
    · rw [hval1 hxb, hsv]
      simp
  · rw [hb, Nat.shiftRight_eq_div_pow, Nat.and_one_is_mod, Nat.testBit_to_div_mod]
    rcases Nat.le_one_iff_eq_zero_or_eq_one.mp
        (Nat.lt_succ_iff.mp (Nat.mod_lt (x / 2 ^ pos) (by omega : 0 < 2))) with h | h <;>
      rw [h] <;> rfl

theorem C7_single_bit_agreement_witness :
    bit false 8 0 1 = true ↔ bits false 8 false 8 0 1 1 = 1 :=
  ((C7_single_bit_agreement false false 8 8 0 1 (by decide) (by decide)
    (by decide)).2.1) rfl

/-- C8.  Single-bit insertion: `with_bit word pos b` has bit `b` at `pos`,
every other bit equal to the corresponding bit of `word`, and `set_bit` is
the in-place form assigning this result to the owning word. -/
theorem C8_with_bit (sS : Bool) (W pos x : Nat) (b : Bool)
    (hx : x < 2 ^ W) (hpos : pos < W) :
    ((with_bit sS W pos x b).testBit pos = b) ∧
    (∀ i, i ≠ pos → (with_bit sS W pos x b).testBit i = x.testBit i) ∧
    set_bit sS W pos x b = with_bit sS W pos x b := by
  refine ⟨?_, ?_, rfl⟩
  · rw [with_bit_testBit sS b hx hpos pos, if_pos rfl]
  · intro i hi
    rw [with_bit_testBit sS b hx hpos i, if_neg hi]

theorem C8_with_bit_witness :
    (with_bit false 16 15 0 true).testBit 15 = true :=
  (C8_with_bit false 16 15 0 true (by decide) (by decide)).1

/-- C9.  Checked-tier conversion propagation: on the
`FieldTypeConversions` bitfield, after writing raw `0` into the field
`try_read_as_non_zero_u8` the checked read returns a failure and the
unwrap-tier variant aborts (modelled as `none`); after writing raw `5` the
checked read returns success carrying `5` and the unwrap-tier variant
returns `5`. -/
theorem C9_conversion_tiers (w : Nat) (hw : w < 2 ^ 16) :
    try_read_as_non_zero_u8 (with_try_read_as_non_zero_u8 w 0) = Except.error () ∧
    try_read_as_non_zero_u8 (with_try_read_as_non_zero_u8 w 5) = Except.ok 5 ∧
    unwrap_read_as_non_zero_u8 (with_try_read_as_non_zero_u8 w 0) = none ∧
    unwrap_read_as_non_zero_u8 (with_try_read_as_non_zero_u8 w 5) = some 5 := by
  have h0 : bits false 16 false 8 0 4 (with_bits false 16 false 8 0 4 w 0) = 0 := by
    rw [roundtrip_lemma false false 0 hw (by omega) (by omega) (by omega)]
    decide
  have h5 : bits false 16 false 8 0 4 (with_bits false 16 false 8 0 4 w 5) = 5 := by
    rw [roundtrip_lemma false false 5 hw (by omega) (by omega) (by omega)]
    decide
  refine ⟨?_, ?_, ?_, ?_⟩ <;>
    simp [try_read_as_non_zero_u8, unwrap_read_as_non_zero_u8,
      with_try_read_as_non_zero_u8, nonZeroU8TryFrom, h0, h5, Except.toOption]

theorem C9_conversion_tiers_witness :
    try_read_as_non_zero_u8 (with_try_read_as_non_zero_u8 43981 0) =
      Except.error () :=
  (C9_conversion_tiers 43981 (by decide)).1

/-- C10.  Signed storage words: all six operations are defined uniformly
for signed and unsigned storage of the same width, and under the field
preconditions `bits` on a signed storage word returns the same value as on
the unsigned word with the identical bit pattern; `with_bits`, `set_bits`,
`bit`, `with_bit` and `set_bit` do not depend on the storage signedness at
all. -/
theorem C10_signed_storage (sV : Bool) (W VB START END_ x v BIT : Nat) (b : Bool)
    (hx : x < 2 ^ W) (hse : START < END_) (heW : END_ ≤ W)
    (hrb : END_ - START ≤ VB) :
    bits true W sV VB START END_ x = bits false W sV VB START END_ x ∧
    with_bits true W sV VB START END_ x v = with_bits false W sV VB START END_ x v ∧
    set_bits true W sV VB START END_ x v = set_bits false W sV VB START END_ x v ∧
    bit true W BIT x = bit false W BIT x ∧
    with_bit true W BIT x b = with_bit false W BIT x b ∧
    set_bit true W BIT x b = set_bit false W BIT x b := by
  refine ⟨?_, rfl, rfl, rfl, rfl, rfl⟩
  rw [bits_eq true sV hx hse heW hrb, bits_eq false sV hx hse heW hrb]

theorem C10_signed_storage_witness :
    bits true 16 false 8 4 8 43981 = bits false 16 false 8 4 8 43981 :=
  (C10_signed_storage false 16 8 4 8 43981 0 0 false (by decide) (by decide)
    (by decide) (by decide)).1

end ProcBitfield
